import Mathlib

/-!
Shallow embedding of the `cache-thing` build-artifact cache
(`src/main.rs`, `src/folder_backend.rs`, `src/storage_backend.rs`).

Modelling conventions:
* A git `ObjectId` is its hexadecimal string rendering (the Rust code only
  ever compares ids and renders them with `to_string`).
* Repository state reached through `gix` (HEAD id, HEAD parents, the resolved
  trunk commit of `origin/main` / `origin/master`, and the commit sequence
  yielded by the ancestry walk of `possible_restore_keys`) is a record
  `RepoState`; `gix::discover` failing is modelled by passing `none`.
* Environment variables are `Option String` arguments.
* The SHA-256 digest is abstracted as a function argument
  (`digest : String → List Nat`, a byte sequence); the hex rendering
  `base16ct::lower::encode_string` is modelled concretely.
* Tar archives are lists of entries (component path plus byte content);
  gzip compression is a byte-transparent transport and is elided.
* The `unwrap()` panic in pull's extraction loop is modelled by `Option`:
  `none` is a panic, distinct from every `Result`-style error.
-/

/-- A git object id, rendered as its hexadecimal string (`ObjectId::to_string`). -/
abbrev ObjectId := String

/-- `format_cache_key_str` (main.rs:240-246): `"{prefix}-{key}"`, or
`"{prefix}-{key}-{suffix}"` when a suffix is given. -/
def format_cache_key_str (pfx : String) (key : String) (sfx : Option String) : String :=
  match sfx with
  | some s => pfx ++ "-" ++ key ++ "-" ++ s
  | none => pfx ++ "-" ++ key

/-- `format_cache_key` (main.rs:236-238): renders the commit id and delegates. -/
def format_cache_key (pfx : String) (commit : ObjectId) (sfx : Option String) : String :=
  format_cache_key_str pfx commit sfx

/-- `leadMatch pat s`: `pat` is an initial run of `s` (character lists). -/
def leadMatch : List Char → List Char → Bool
  | [], _ => true
  | _ :: _, [] => false
  | a :: as, b :: bs => a == b && leadMatch as bs

/-- `hasSub s pat`: `pat` occurs contiguously inside `s` (Rust `str::contains`). -/
def hasSub : List Char → List Char → Bool
  | [], pat => pat.isEmpty
  | s@(_ :: t), pat => leadMatch pat s || hasSub t pat

/-- Rust `str::contains` on strings. -/
def strContains (s pat : String) : Bool :=
  hasSub s.data pat.data

/-- `in_merge_request_ci` (main.rs:316-324): the `GITHUB_REF` environment
variable is set and contains `"refs/pull/"`. -/
def in_merge_request_ci (github_ref : Option String) : Bool :=
  match github_ref with
  | some v => strContains v "refs/pull/"
  | none => false

/-- Fatal key-resolution errors of `current_key` / `possible_restore_keys`. -/
inductive KeyError where
  | repositoryNotFound
  | trunkNotFound
  deriving DecidableEq

/-- The repository facts the key-resolution code reads through `gix`. -/
structure RepoState where
  /-- `repository.head_commit()?.id` -/
  head_id : ObjectId
  /-- `head.parent_ids()` in order -/
  head_parents : List ObjectId
  /-- the commit of `origin/main`, else `origin/master`; `none` when neither
  reference exists (`main_commit` bails, main.rs:326-343) -/
  main_id : Option ObjectId
  /-- the commit sequence yielded by the ancestry walk configured in
  `possible_restore_keys` (main.rs:271-280, before `take(10)`) -/
  walk : List ObjectId

/-- `current_key` (main.rs:211-234): the primary save key.  Inside a merge
request with a multi-parent HEAD, the first parent differing from the trunk
commit replaces HEAD's id. -/
def current_key (pfx : String) (sfx : Option String) (repo : Option RepoState)
    (github_ref : Option String) : Except KeyError String :=
  match repo with
  | none => Except.error KeyError.repositoryNotFound
  | some r =>
    match r.main_id with
    | none => Except.error KeyError.trunkNotFound
    | some m =>
      let hid : ObjectId :=
        if in_merge_request_ci github_ref then
          if r.head_parents.length > 1 then
            match r.head_parents.find? (fun p => p != m) with
            | some p => p
            | none => r.head_id
          else r.head_id
        else r.head_id
      Except.ok (format_cache_key pfx hid sfx)

/-- Key resolution of `push` (main.rs:93-97): a supplied `fixed_key` is used
literally; otherwise `current_key` runs (and only then touches the repo). -/
def push_key (pfx : String) (sfx : Option String) (fixed_key : Option String)
    (repo : Option RepoState) (github_ref : Option String) : Except KeyError String :=
  match fixed_key with
  | some k => Except.ok (format_cache_key_str pfx k sfx)
  | none => current_key pfx sfx repo github_ref

/-- The body of the walk loop of `possible_restore_keys` (main.rs:283-296):
skip the trunk commit, else push the suffix-qualified key (when a suffix is
present) and then the bare key. -/
def restoreStep (pfx : String) (sfx : Option String) (main_id : ObjectId)
    (ks : List String) (c : ObjectId) : List String :=
  if c == main_id then ks
  else
    (if sfx.isSome then ks ++ [format_cache_key pfx c sfx] else ks) ++
      [format_cache_key pfx c none]

/-- The loop and tail pushes of `possible_restore_keys` (main.rs:280-313),
given the walked commits and the trunk commit id. -/
def restore_keys_core (pfx : String) (sfx fallback_key : Option String)
    (walk : List ObjectId) (main_id : ObjectId) : List String :=
  let keys1 := (walk.take 10).foldl (restoreStep pfx sfx main_id) []
  let keys2 :=
    match fallback_key with
    | some fk =>
        (if sfx.isSome then keys1 ++ [format_cache_key_str pfx fk sfx] else keys1) ++
          [format_cache_key_str pfx fk none]
    | none => keys1
  (if sfx.isSome then keys2 ++ [format_cache_key pfx main_id sfx] else keys2) ++
    [format_cache_key pfx main_id none]

/-- `possible_restore_keys` (main.rs:248-314): repository discovery and trunk
resolution, then the pure candidate computation. -/
def possible_restore_keys (pfx : String) (sfx fallback_key : Option String)
    (repo : Option RepoState) : Except KeyError (List String) :=
  match repo with
  | none => Except.error KeyError.repositoryNotFound
  | some r =>
    match r.main_id with
    | none => Except.error KeyError.trunkNotFound
    | some m => Except.ok (restore_keys_core pfx sfx fallback_key r.walk m)

/-- The spec's per-commit pair: suffix-qualified key (when a suffix is
present) immediately followed by the bare key. -/
def pairKeys (pfx : String) (sfx : Option String) (k : String) : List String :=
  (if sfx.isSome then [format_cache_key_str pfx k sfx] else []) ++
    [format_cache_key_str pfx k none]

/-- The walked, trunk-free commits: the ancestry walk truncated to 10,
with the trunk commit filtered out. -/
def walkedCommits (walk : List ObjectId) (main_id : ObjectId) : List ObjectId :=
  (walk.take 10).filter (fun c => !(c == main_id))

/-- The walked-commit portion of the candidate list. -/
def walkedSection (pfx : String) (sfx : Option String)
    (walk : List ObjectId) (main_id : ObjectId) : List String :=
  (walkedCommits walk main_id).flatMap (pairKeys pfx sfx)

/-- The fallback-key portion of the candidate list. -/
def fallbackSection (pfx : String) (sfx fallback_key : Option String) : List String :=
  match fallback_key with
  | some fk => pairKeys pfx sfx fk
  | none => []

/-- The final, always-present trunk portion of the candidate list. -/
def trunkSection (pfx : String) (sfx : Option String) (main_id : ObjectId) : List String :=
  pairKeys pfx sfx main_id

/-- The candidate list as the spec describes it: walked non-trunk commits
(nearest first, each contributing its key pair), then the fallback pair,
then the trunk pair. -/
def restore_candidates_spec (pfx : String) (sfx fallback_key : Option String)
    (walk : List ObjectId) (main_id : ObjectId) : List String :=
  walkedSection pfx sfx walk main_id ++ fallbackSection pfx sfx fallback_key ++
    trunkSection pfx sfx main_id

/-- A tar entry: the archive-internal path as components, plus byte content.
An entry with `path = []` renders the empty internal path, whose component
list is empty. -/
structure TarEntry where
  path : List String
  content : List Nat
  deriving DecidableEq

/-- A write performed on the filesystem during extraction: the requested
output path, the entry's path minus its leading alias component, and the
bytes written. -/
abbrev ExtractWrite := String × List String × List Nat

/-- `FileEntry` (main.rs:122-125). -/
structure FileEntry where
  path : String
  extracted : Bool
  deriving DecidableEq

/-- Insertion into the alias-keyed hashmap `file_etries` (main.rs:148-161):
an existing key's value is replaced, otherwise the pair is appended. -/
def insertEntry (m : List (String × FileEntry)) (k : String) (v : FileEntry) :
    List (String × FileEntry) :=
  if m.any (fun q => q.1 == k) then
    m.map (fun q => if q.1 == k then (k, v) else q)
  else m ++ [(k, v)]

/-- The requested-file map of `pull` (main.rs:148-161): each requested path
keyed by its alias `h path`, initially unextracted.  `h` stands for
`hash_from_path` (the hex SHA-256 of the path text). -/
def buildEntries (h : String → String) (files : List String) :
    List (String × FileEntry) :=
  files.foldl (fun m f => insertEntry m (h f) (FileEntry.mk f false)) []

/-- `file_entry.extracted = true` through `get_mut` (main.rs:173-184). -/
def markExtracted (m : List (String × FileEntry)) (a : String) :
    List (String × FileEntry) :=
  m.map (fun q => if q.1 == a then (q.1, FileEntry.mk q.2.path true) else q)

/-- The requested output path stored under alias `a`, if any. -/
def lookupPath (m : List (String × FileEntry)) (a : String) : Option String :=
  (m.find? (fun q => q.1 == a)).map (fun q => q.2.path)

/-- The extraction loop of `pull` (main.rs:167-191), with the accumulated
writes.  `none` models the `unwrap()` panic on an entry whose path has no
components (main.rs:171). -/
def unpackGo (m : List (String × FileEntry)) :
    List TarEntry → List ExtractWrite →
      Option (List (String × FileEntry) × List ExtractWrite)
  | [], acc => some (m, acc.reverse)
  | e :: rest, acc =>
    match e.path with
    | [] => none
    | a :: r =>
      match m.find? (fun q => q.1 == a) with
      | some q => unpackGo (markExtracted m a) rest ((q.2.path, r, e.content) :: acc)
      | none => unpackGo m rest acc

/-- Extraction of an archive against a requested map: the final map (with
extraction marks) and the writes performed, or `none` on panic. -/
def unpack (m : List (String × FileEntry)) (entries : List TarEntry) :
    Option (List (String × FileEntry) × List ExtractWrite) :=
  unpackGo m entries []

/-- The post-pass report (main.rs:193-197): the requested path of every map
entry never marked extracted. -/
def warningsOf (m : List (String × FileEntry)) : List String :=
  (m.filter (fun q => !q.2.extracted)).map (fun q => q.2.path)

/-- Outcome of a `pull` run over the abstracted backend. -/
inductive PullResult where
  /-- `bail!("No cache found …")` (main.rs:145) -/
  | noCacheFound
  /-- the `unwrap()` panic on an entry with an empty path -/
  | panicked
  /-- success: the selected key, the writes, the warnings, exit code `Ok(0)` -/
  | ok (key : String) (writes : List ExtractWrite) (warns : List String) (code : Nat)
  deriving DecidableEq

/-- `pull` after a key has been selected (main.rs:148-199): build the
requested map, read the archive stored under `k`, extract, report, `Ok(0)`. -/
def pullWithKey (entriesOf : String → List TarEntry) (h : String → String)
    (files : List String) (k : String) : PullResult :=
  match unpack (buildEntries h files) (entriesOf k) with
  | none => PullResult.panicked
  | some (m', ws) => PullResult.ok k ws (warningsOf m') 0

/-- `pull` (main.rs:127-199) over the candidate key list: probe
`backend.exists` (`ex`) in list order, take the first hit, else fail;
`entriesOf k` is the archive stored under key `k`. -/
def pull (ex : String → Bool) (entriesOf : String → List TarEntry)
    (h : String → String) (files : List String) (keys : List String) : PullResult :=
  match keys.find? ex with
  | some k => pullWithKey entriesOf h files k
  | none => PullResult.noCacheFound

/-- A source path's content as `push` sees it (main.rs:104-114): either a
single file's bytes, or a directory holding files at relative component
paths. -/
inductive FsNode where
  | file (content : List Nat)
  | dir (tree : List (List String × List Nat))
  deriving DecidableEq

/-- The archive construction of `push` (main.rs:104-114): a file is stored
under its alias `h path` alone (`append_path_with_name`); a directory's
descendants are stored under the alias as root (`append_dir_all`). -/
def pack (h : String → String) (inputs : List (String × FsNode)) : List TarEntry :=
  inputs.flatMap fun q =>
    match q.2 with
    | FsNode.file c => [TarEntry.mk [h q.1] c]
    | FsNode.dir tree => tree.map fun rc => TarEntry.mk (h q.1 :: rc.1) rc.2

/-- The packed paths with their original layout: each file of input `(p, n)`
at `p` joined with its relative components, with its original bytes. -/
def originalFiles (inputs : List (String × FsNode)) : List ExtractWrite :=
  inputs.flatMap fun q =>
    match q.2 with
    | FsNode.file c => [(q.1, ([] : List String), c)]
    | FsNode.dir tree => tree.map fun rc => (q.1, rc.1, rc.2)

/-- One lowercase hex digit (`base16ct::lower`): `0-9` then `a-f`. -/
def hexDigit (n : Nat) : Char :=
  if n < 10 then Char.ofNat (48 + n) else Char.ofNat (87 + n)

/-- Two lowercase hex digits of one byte, high nibble first. -/
def byteHex (b : Nat) : List Char :=
  [hexDigit (b / 16 % 16), hexDigit (b % 16)]

/-- `base16ct::lower::encode_string` over a byte sequence. -/
def base16_lower_encode (bs : List Nat) : String :=
  String.mk (bs.flatMap byteHex)

/-- `hash_file_name` (folder_backend.rs:7-10): lowercase hex of the digest of
the key.  The SHA-256 digest itself is abstracted as `digest`. -/
def hash_file_name (digest : String → List Nat) (key : String) : String :=
  base16_lower_encode (digest key)

/-- `hash_from_path` (main.rs:345-351): lowercase hex of the digest of the
path text. -/
def hash_from_path (digest : String → List Nat) (path : String) : String :=
  base16_lower_encode (digest path)

/-- `FolderBackend::exists` (folder_backend.rs:52-56): whether the file named
`hash_file_name key` under the base directory is among the existing paths.
No lock is taken. -/
def folder_exists (digest : String → List Nat) (base_path : String)
    (existing : List String) (key : String) : Bool :=
  existing.contains (base_path ++ "/" ++ hash_file_name digest key)

/-! ### Helper lemmas -/

/-- One walk-loop step either skips the trunk commit or appends the commit's
key pair. -/
lemma restoreStep_eq (pfx : String) (sfx : Option String) (main_id : ObjectId)
    (ks : List String) (c : ObjectId) :
    restoreStep pfx sfx main_id ks c =
      if c = main_id then ks else ks ++ pairKeys pfx sfx c := by
  unfold restoreStep pairKeys
  by_cases hceq : c = main_id
  · simp [hceq]
  · have hc' : (c == main_id) = false := beq_eq_false_iff_ne.mpr hceq
    by_cases hs : sfx.isSome <;>
      simp [hc', hceq, hs, format_cache_key, List.append_assoc]

/-- The key-pair foldl of `possible_restore_keys` accumulates the filtered
walk's key pairs behind any accumulator. -/
lemma foldl_pairs (pfx : String) (sfx : Option String) (main_id : ObjectId)
    (l : List ObjectId) : ∀ acc : List String,
    l.foldl (restoreStep pfx sfx main_id) acc
      = acc ++ (l.filter (fun c => !(c == main_id))).flatMap (pairKeys pfx sfx) := by
  induction l with
  | nil => intro acc; simp
  | cons c t ih =>
    intro acc
    rw [List.foldl_cons, restoreStep_eq, ih]
    by_cases hceq : c = main_id
    · have hc' : (c == main_id) = true := beq_iff_eq.mpr hceq
      simp [hceq, hc']
    · have hc' : (c == main_id) = false := beq_eq_false_iff_ne.mpr hceq
      simp [hceq, hc', List.append_assoc]

/-- `restore_keys_core` decomposes into the walked, fallback and trunk
sections, in this order. -/
lemma restore_keys_core_eq (pfx : String) (sfx fallback_key : Option String)
    (walk : List ObjectId) (main_id : ObjectId) :
    restore_keys_core pfx sfx fallback_key walk main_id
      = walkedSection pfx sfx walk main_id ++ fallbackSection pfx sfx fallback_key ++
          trunkSection pfx sfx main_id := by
  unfold restore_keys_core walkedSection walkedCommits fallbackSection trunkSection
  rw [foldl_pairs]
  cases fallback_key <;> by_cases hs : sfx.isSome <;>
    simp [hs, pairKeys, format_cache_key, List.append_assoc]

/-- `find?` returns the head of the first satisfying suffix. -/
lemma find?_first {α} (p : α → Bool) (l1 : List α) (x : α) (l2 : List α)
    (h1 : ∀ y ∈ l1, p y = false) (hx : p x = true) :
    (l1 ++ x :: l2).find? p = some x := by
  induction l1 with
  | nil => simp [List.find?_cons, hx]
  | cons a t ih =>
    have ha : p a = false := h1 a (by simp)
    simp only [List.cons_append, List.find?_cons, ha]
    exact ih (fun y hy => h1 y (by simp [hy]))

/-- A `flatMap` whose blocks are bounded by `k` has length at most
`k * length`. -/
lemma flatMap_length_le {α β} (f : α → List β) (k : Nat) (l : List α)
    (hf : ∀ x, (f x).length ≤ k) : (l.flatMap f).length ≤ k * l.length := by
  induction l with
  | nil => simp
  | cons a t ih =>
    rw [List.flatMap_cons, List.length_append]
    have := hf a
    calc (f a).length + (t.flatMap f).length ≤ k + k * t.length := by omega
    _ = k * (t.length + 1) := by ring
    _ = k * (a :: t).length := by simp

/-! ### Claims about key formatting and key resolution -/

/-- C8: `format_cache_key_str P I none` is `"P-I"` (prefix, hyphen,
identifier); with a suffix `S` it is `"P-I-S"`. -/
theorem format_key_shape (P I : String) :
    format_cache_key_str P I none = P ++ "-" ++ I ∧
    ∀ S : String, format_cache_key_str P I (some S) = P ++ "-" ++ I ++ "-" ++ S :=
  ⟨rfl, fun _ => rfl⟩

/-- C7: with a `fixed_key`, the resolved push key is exactly
`format_cache_key_str pfx fixed_key sfx` for every repository state —
including when no repository is discoverable (`repo = none`) — so the key
computation performs no repository access and cannot fail. -/
theorem push_fixed_key_literal (pfx : String) (sfx : Option String) (k : String)
    (gref : Option String) :
    (∀ repo : Option RepoState,
      push_key pfx sfx (some k) repo gref
        = Except.ok (format_cache_key_str pfx k sfx)) ∧
    push_key pfx sfx (some k) none gref
      = Except.ok (format_cache_key_str pfx k sfx) :=
  ⟨fun _ => rfl, rfl⟩

/-- C1: whenever the trunk resolves, the restore-candidate list is exactly:
for each walked non-trunk commit in walk order the suffix-qualified key (when
a suffix is present) immediately followed by the bare key; then the fallback
key's pair (when supplied); then, last, the trunk commit's pair.  The trunk
commit is filtered out of the walked portion. -/
theorem restore_candidates_shape (pfx : String) (sfx fallback_key : Option String)
    (r : RepoState) (m : ObjectId) (hm : r.main_id = some m) :
    possible_restore_keys pfx sfx fallback_key (some r)
      = Except.ok (restore_candidates_spec pfx sfx fallback_key r.walk m) := by
  simp [possible_restore_keys, hm, restore_candidates_spec, restore_keys_core_eq]

/-- Witness for C1: a concrete repository whose walk holds two feature
commits and the trunk commit, a suffix and a fallback key. -/
theorem restore_candidates_shape_witness :
    possible_restore_keys "ci" (some "x") (some "nightly")
        (some (RepoState.mk "B" ["A"] (some "M") ["B", "A", "M"]))
      = Except.ok (restore_candidates_spec "ci" (some "x") (some "nightly")
          ["B", "A", "M"] "M") :=
  restore_candidates_shape "ci" (some "x") (some "nightly")
    (RepoState.mk "B" ["A"] (some "M") ["B", "A", "M"]) "M" rfl

/-- C5: the candidate computation splits as walked section, fallback
section, trunk section; the walked commits are the walk truncated to 10 with
the trunk removed, so they number at most 10 (hence at most 10 distinct),
and the walked portion holds at most 10 keys, or 20 when a suffix is
present. -/
theorem restore_walk_truncated (pfx : String) (sfx fallback_key : Option String)
    (walk : List ObjectId) (main_id : ObjectId) :
    restore_keys_core pfx sfx fallback_key walk main_id
        = walkedSection pfx sfx walk main_id ++ fallbackSection pfx sfx fallback_key ++
            trunkSection pfx sfx main_id ∧
    (walkedCommits walk main_id).length ≤ 10 ∧
    (walkedCommits walk main_id).dedup.length ≤ 10 ∧
    (walkedSection pfx sfx walk main_id).length ≤ if sfx.isSome then 20 else 10 := by
  have hwc : (walkedCommits walk main_id).length ≤ 10 :=
    le_trans (List.length_filter_le _ _) (List.length_take_le _ _)
  refine ⟨restore_keys_core_eq pfx sfx fallback_key walk main_id, hwc, ?_, ?_⟩
  · exact le_trans (List.dedup_sublist _).length_le hwc
  · have hpk : ∀ c : ObjectId,
        (pairKeys pfx sfx c).length ≤ if sfx.isSome then 2 else 1 := by
      intro c; by_cases hs : sfx.isSome <;> simp [pairKeys, hs]
    have := flatMap_length_le (pairKeys pfx sfx) (if sfx.isSome then 2 else 1)
      (walkedCommits walk main_id) hpk
    have h2 : (if sfx.isSome then 2 else 1) * (walkedCommits walk main_id).length
        ≤ (if sfx.isSome then 2 else 1) * 10 := Nat.mul_le_mul_left _ hwc
    refine le_trans this (le_trans h2 ?_)
    by_cases hs : sfx.isSome <;> simp [hs]

/-- C2: without a fixed key, the save key's identifier is: inside
merge-request mode (`GITHUB_REF` contains a pull-request reference) with a
multi-parent HEAD, the first parent differing from the trunk commit; HEAD's
own id when HEAD has at most one parent in this mode, or when every parent
equals the trunk commit; and always HEAD's id outside merge-request mode. -/
theorem current_key_effective_id (pfx : String) (sfx : Option String)
    (r : RepoState) (m : ObjectId) (gref : Option String)
    (hm : r.main_id = some m) :
    (in_merge_request_ci gref = true →
      ∀ l1 p l2, r.head_parents = l1 ++ p :: l2 → (∀ q ∈ l1, q = m) → p ≠ m →
        r.head_parents.length > 1 →
        current_key pfx sfx (some r) gref
          = Except.ok (format_cache_key pfx p sfx)) ∧
    (in_merge_request_ci gref = true → r.head_parents.length ≤ 1 →
      current_key pfx sfx (some r) gref
        = Except.ok (format_cache_key pfx r.head_id sfx)) ∧
    (in_merge_request_ci gref = true → (∀ q ∈ r.head_parents, q = m) →
      current_key pfx sfx (some r) gref
        = Except.ok (format_cache_key pfx r.head_id sfx)) ∧
    (in_merge_request_ci gref = false →
      current_key pfx sfx (some r) gref
        = Except.ok (format_cache_key pfx r.head_id sfx)) := by
  refine ⟨?_, ?_, ?_, ?_⟩
  · intro hmr l1 p l2 hsplit hall hp hlen
    have hfind : r.head_parents.find? (fun q => q != m) = some p := by
      rw [hsplit]
      refine find?_first _ l1 p l2 (fun y hy => ?_) (bne_iff_ne.mpr hp)
      have : y = m := hall y hy
      simp [this]
    simp [current_key, hm, hmr, hlen, hfind]
  · intro hmr hlen
    have hlen' : ¬ r.head_parents.length > 1 := by omega
    simp [current_key, hm, hmr, hlen']
  · intro hmr hall
    have hfind : r.head_parents.find? (fun q => q != m) = none := by
      refine List.find?_eq_none.mpr (fun q hq => ?_)
      have : q = m := hall q hq
      simp [this]
    by_cases hlen : r.head_parents.length > 1 <;>
      simp [current_key, hm, hmr, hlen, hfind]
  · intro hmr
    simp [current_key, hm, hmr]

/-- Witness for C2: a merge commit of trunk `M` and feature tip `P`, pulled
in a GitHub pull-request run: the key names `P`. -/
theorem current_key_effective_id_witness :
    current_key "ci" none (some (RepoState.mk "H" ["M", "P"] (some "M") []))
        (some "refs/pull/7/merge")
      = Except.ok (format_cache_key "ci" "P" none) :=
  (current_key_effective_id "ci" none (RepoState.mk "H" ["M", "P"] (some "M") [])
      "M" (some "refs/pull/7/merge") rfl).1
    (by decide) ["M"] "P" [] rfl (by decide) (by decide) (by decide)

/-- C3: `pull` probes the backend's existence check over the candidate keys
in list order: if some key in the list exists while all keys before it do
not, that key is the one selected and opened for reading; if no candidate
key exists, `pull` fails with the no-cache-found error — an outcome that
carries no selected key, no writes, and never consults the stored archives
(it holds for every `entriesOf`). -/
theorem pull_probe_order (ex : String → Bool) (entriesOf : String → List TarEntry)
    (h : String → String) (files : List String) (keys : List String) :
    ((∀ k ∈ keys, ex k = false) →
      pull ex entriesOf h files keys = PullResult.noCacheFound) ∧
    (∀ l1 k l2, keys = l1 ++ k :: l2 → ex k = true → (∀ j ∈ l1, ex j = false) →
      keys.find? ex = some k ∧
        pull ex entriesOf h files keys = pullWithKey entriesOf h files k) := by
  constructor
  · intro hall
    have hnone : keys.find? ex = none :=
      List.find?_eq_none.mpr (fun a ha => by simp [hall a ha])
    simp [pull, hnone]
  · intro l1 k l2 hsplit hk hpre
    have hfind : keys.find? ex = some k := by
      rw [hsplit]; exact find?_first ex l1 k l2 hpre hk
    exact ⟨hfind, by simp [pull, hfind]⟩

/-- Witness for C3: among `["a", "b", "c"]` with only `"b"` existing, the
probe selects `"b"`. -/
theorem pull_probe_order_witness :
    List.find? (fun k => k == "b") ["a", "b", "c"] = some "b" ∧
      pull (fun k => k == "b") (fun _ => []) (fun s => s) [] ["a", "b", "c"]
        = pullWithKey (fun _ => []) (fun s => s) [] "b" :=
  (pull_probe_order (fun k => k == "b") (fun _ => []) (fun s => s) []
      ["a", "b", "c"]).2 ["a"] "b" ["c"] rfl (by decide) (by decide)

/-! ### Archive extraction lemmas -/

/-- The extraction loop aborts (with `none`, the panic) exactly when some
archive entry's internal path has no components, whatever the requested map
and accumulator. -/
lemma unpackGo_eq_none (entries : List TarEntry) :
    ∀ (m : List (String × FileEntry)) (acc : List ExtractWrite),
      unpackGo m entries acc = none ↔ ∃ e ∈ entries, e.path = [] := by
  induction entries with
  | nil => intro m acc; simp [unpackGo]
  | cons e rest ih =>
    intro m acc
    match he : e.path with
    | [] =>
      simp only [unpackGo, he]
      constructor
      · intro _; exact ⟨e, by simp, he⟩
      · intro _; trivial
    | a :: r =>
      cases hfind : m.find? (fun q => q.1 == a) with
      | some q =>
        simp only [unpackGo, he, hfind, ih]
        simp [List.exists_mem_cons_iff, he]
      | none =>
        simp only [unpackGo, he, hfind, ih]
        simp [List.exists_mem_cons_iff, he]

/-- C10: extraction assumes every archive entry's path has at least one
component.  `unpack` panics (`none`) precisely when an entry with an empty
path is present, and when that happens after a key was selected, `pull`
ends in the panic outcome — not in an error result and not by skipping the
entry. -/
theorem unpack_empty_path_panics (m : List (String × FileEntry))
    (entries : List TarEntry) :
    (unpack m entries = none ↔ ∃ e ∈ entries, e.path = []) ∧
    (∀ (ex : String → Bool) (entriesOf : String → List TarEntry)
        (h : String → String) (files : List String) (keys : List String)
        (k : String), keys.find? ex = some k →
      unpack (buildEntries h files) (entriesOf k) = none →
      pull ex entriesOf h files keys = PullResult.panicked) := by
  constructor
  · exact unpackGo_eq_none entries m []
  · intro ex entriesOf h files keys k hfind hnone
    simp [pull, hfind, pullWithKey, hnone]

/-- Witness for C10: an archive holding one entry with an empty path makes
`pull` panic. -/
theorem unpack_empty_path_panics_witness :
    pull (fun k => k == "k") (fun _ => [TarEntry.mk [] [1]]) (fun s => s)
        ["f"] ["k"] = PullResult.panicked :=
  (unpack_empty_path_panics [] []).2 (fun k => k == "k")
    (fun _ => [TarEntry.mk [] [1]]) (fun s => s) ["f"] ["k"] "k" rfl rfl

/-- Rebuilding a map pair from its components is the identity. -/
lemma pair_eta (q : String × FileEntry) :
    (q.1, FileEntry.mk q.2.path q.2.extracted) = q := rfl

/-- A successful extraction pass leaves every requested pair in place,
marking it extracted exactly when the pass saw an archive entry whose
leading component is its alias. -/
lemma unpack_marks (entries : List TarEntry) :
    ∀ (m : List (String × FileEntry)) (acc : List ExtractWrite)
      (m' : List (String × FileEntry)) (ws : List ExtractWrite),
      unpackGo m entries acc = some (m', ws) →
      m' = m.map (fun q => (q.1, FileEntry.mk q.2.path
        (q.2.extracted || entries.any (fun e => e.path.head? == some q.1)))) := by
  induction entries with
  | nil =>
    intro m acc m' ws hok
    simp only [unpackGo, Option.some.injEq, Prod.mk.injEq] at hok
    simp [← hok.1, pair_eta]
  | cons e rest ih =>
    intro m acc m' ws hok
    match he : e.path with
    | [] =>
      simp only [unpackGo, he] at hok
      exact absurd hok (by simp)
    | a :: r =>
      simp only [unpackGo, he] at hok
      cases hfind : m.find? (fun q => q.1 == a) with
      | none =>
        rw [hfind] at hok
        rw [ih m acc m' ws hok]
        refine List.map_congr_left (fun q hq => ?_)
        have hqa : (q.1 == a) = false := by
          have := List.find?_eq_none.mp hfind q hq
          simpa using this
        have haq : (a == q.1) = false :=
          beq_eq_false_iff_ne.mpr (Ne.symm (beq_eq_false_iff_ne.mp hqa))
        simp [he, List.any_cons, haq]
      | some qe =>
        rw [hfind] at hok
        rw [ih (markExtracted m a) ((qe.2.path, r, e.content) :: acc) m' ws hok]
        rw [markExtracted, List.map_map]
        refine List.map_congr_left (fun q hq => ?_)
        by_cases hqa : (q.1 == a) = true
        · have haq : (a == q.1) = true := by
            have : q.1 = a := eq_of_beq hqa
            simp [this]
          simp [Function.comp, hqa, he, List.any_cons, haq]
        · have hqa' : (q.1 == a) = false := by simpa using hqa
          have haq : (a == q.1) = false :=
            beq_eq_false_iff_ne.mpr (Ne.symm (beq_eq_false_iff_ne.mp hqa'))
          simp [Function.comp, hqa', he, List.any_cons, haq]

/-- C6: (1) an archive entry whose leading alias component is not in the
requested map is skipped: extraction proceeds exactly as if the entry were
absent, raising no error; (2) after a full pass the report names exactly the
requested paths whose alias no archive entry carried (each missing request
is one warning); (3) this outcome is non-fatal: `pull` still ends in the
success result with exit code 0. -/
theorem unpack_skip_warn_nonfatal :
    (∀ (m : List (String × FileEntry)) (e : TarEntry) (rest : List TarEntry)
        (a : String) (r : List String), e.path = a :: r →
      m.find? (fun q => q.1 == a) = none →
      unpack m (e :: rest) = unpack m rest) ∧
    (∀ (m : List (String × FileEntry)) (entries : List TarEntry)
        (m' : List (String × FileEntry)) (ws : List ExtractWrite),
      unpack m entries = some (m', ws) →
      warningsOf m' = (m.filter (fun q =>
        !(q.2.extracted || entries.any (fun e => e.path.head? == some q.1)))).map
          (fun q => q.2.path)) ∧
    (∀ (ex : String → Bool) (entriesOf : String → List TarEntry)
        (h : String → String) (files : List String) (keys : List String)
        (k : String) (m' : List (String × FileEntry)) (ws : List ExtractWrite),
      keys.find? ex = some k →
      unpack (buildEntries h files) (entriesOf k) = some (m', ws) →
      pull ex entriesOf h files keys = PullResult.ok k ws (warningsOf m') 0) := by
  refine ⟨?_, ?_, ?_⟩
  · intro m e rest a r he hfind
    simp [unpack, unpackGo, he, hfind]
  · intro m entries m' ws hok
    rw [unpack_marks entries m [] m' ws hok]
    simp only [warningsOf, List.filter_map, List.map_map]
    rfl
  · intro ex entriesOf h files keys k m' ws hfind hok
    simp [pull, hfind, pullWithKey, hok]

/-- Witness for C6: the archive holds only an unrequested alias, so the
single requested path is skipped, warned about, and `pull` still exits 0. -/
theorem unpack_skip_warn_nonfatal_witness :
    pull (fun k => k == "k1") (fun _ => [TarEntry.mk ["x", "f"] [9]])
        (fun s => s ++ "h") ["p"] ["k1"]
      = PullResult.ok "k1" [] (warningsOf [("ph", FileEntry.mk "p" false)]) 0 :=
  (unpack_skip_warn_nonfatal).2.2 (fun k => k == "k1")
    (fun _ => [TarEntry.mk ["x", "f"] [9]]) (fun s => s ++ "h") ["p"] ["k1"] "k1"
    [("ph", FileEntry.mk "p" false)] [] rfl (by decide)

/-- `markExtracted` unfolded one pair at a time. -/
lemma markExtracted_cons (q : String × FileEntry) (t : List (String × FileEntry))
    (a : String) :
    markExtracted (q :: t) a
      = (if q.1 == a then (q.1, FileEntry.mk q.2.path true) else q) ::
          markExtracted t a := rfl

/-- Marking an alias extracted never changes which requested path an alias
resolves to. -/
lemma find?_markExtracted (m : List (String × FileEntry)) (a b : String) :
    (markExtracted m a).find? (fun q => q.1 == b)
      = (m.find? (fun q => q.1 == b)).map
          (fun q => if q.1 == a then (q.1, FileEntry.mk q.2.path true) else q) := by
  induction m with
  | nil => rfl
  | cons q t ih =>
    rw [markExtracted_cons]
    by_cases hqa : q.1 = a
    · subst hqa
      by_cases hqb : q.1 = b
      · subst hqb
        simp [List.find?_cons]
      · have hqbB : (q.1 == b) = false := beq_eq_false_iff_ne.mpr hqb
        simp [List.find?_cons, hqbB, ih]
    · have hqaB : (q.1 == a) = false := beq_eq_false_iff_ne.mpr hqa
      by_cases hqb : q.1 = b
      · subst hqb
        simp [List.find?_cons, hqaB, hqa]
      · have hqbB : (q.1 == b) = false := beq_eq_false_iff_ne.mpr hqb
        simp [List.find?_cons, hqaB, hqbB, ih]

/-- `lookupPath` is invariant under extraction marking. -/
lemma mark_lookupPath (m : List (String × FileEntry)) (a b : String) :
    lookupPath (markExtracted m a) b = lookupPath m b := by
  unfold lookupPath
  rw [find?_markExtracted]
  cases hf : m.find? (fun q => q.1 == b) with
  | none => rfl
  | some q =>
    by_cases hqa : q.1 = a
    · have hqaB : (q.1 == a) = true := beq_iff_eq.mpr hqa
      simp [hqaB, hqa]
    · have hqaB : (q.1 == a) = false := beq_eq_false_iff_ne.mpr hqa
      simp [hqaB, hqa]

/-- When every entry's leading alias resolves in the requested map, the
extraction pass writes, per entry and in order, the entry's bytes at the
alias's requested path joined with the entry's remaining components. -/
lemma unpackGo_writes (entries : List TarEntry) :
    ∀ (m : List (String × FileEntry)) (acc : List ExtractWrite),
      (∀ e ∈ entries, ∃ a r, e.path = a :: r ∧ (lookupPath m a).isSome) →
      (unpackGo m entries acc).map (fun x => x.2)
        = some (acc.reverse ++ entries.map (fun e =>
            ((lookupPath m (e.path.headD "")).getD "", e.path.tail, e.content))) := by
  induction entries with
  | nil => intro m acc _; simp [unpackGo]
  | cons e rest ih =>
    intro m acc hall
    obtain ⟨a, r, he, hsome⟩ := hall e (by simp)
    cases hfind : m.find? (fun q => q.1 == a) with
    | none =>
      exfalso
      rw [lookupPath, hfind] at hsome
      simp at hsome
    | some qe =>
      have hstep : unpackGo m (e :: rest) acc
          = unpackGo (markExtracted m a) rest ((qe.2.path, r, e.content) :: acc) := by
        simp only [unpackGo, he, hfind]
      have hrest : ∀ e' ∈ rest,
          ∃ a' r', e'.path = a' :: r' ∧ (lookupPath (markExtracted m a) a').isSome := by
        intro e' he'
        obtain ⟨a', r', hp', hs'⟩ := hall e' (by simp [he'])
        exact ⟨a', r', hp', by rwa [mark_lookupPath]⟩
      rw [hstep, ih (markExtracted m a) ((qe.2.path, r, e.content) :: acc) hrest]
      congr 1
      rw [List.reverse_cons, List.map_cons]
      rw [List.map_congr_left (fun (x : TarEntry) _ => by
        rw [mark_lookupPath] :
          ∀ x ∈ rest, ((lookupPath (markExtracted m a) (x.path.headD "")).getD "",
              x.path.tail, x.content)
            = ((lookupPath m (x.path.headD "")).getD "", x.path.tail, x.content))]
      have hfe : ((lookupPath m (e.path.headD "")).getD "", e.path.tail, e.content)
          = (qe.2.path, r, e.content) := by
        rw [he]
        simp [lookupPath, hfind]
      rw [hfe]
      simp [List.append_assoc]

/-- Inserting an absent key appends the pair. -/
lemma insertEntry_absent (m : List (String × FileEntry)) (k : String) (v : FileEntry)
    (hk : ∀ q ∈ m, (q.1 == k) = false) : insertEntry m k v = m ++ [(k, v)] := by
  have hany : m.any (fun q => q.1 == k) = false := by
    rw [List.any_eq_false]
    intro q hq
    simp [hk q hq]
  simp [insertEntry, hany]

/-- With collision-free aliases, building the requested map appends one pair
per file, in order, behind any alias-disjoint accumulator. -/
lemma buildEntries_go (h : String → String) :
    ∀ (files : List String) (acc : List (String × FileEntry)),
      (files.map h).Nodup →
      (∀ f ∈ files, ∀ q ∈ acc, (q.1 == h f) = false) →
      files.foldl (fun m f => insertEntry m (h f) (FileEntry.mk f false)) acc
        = acc ++ files.map (fun f => (h f, FileEntry.mk f false)) := by
  intro files
  induction files with
  | nil => intro acc _ _; simp
  | cons f t ih =>
    intro acc hnd hacc
    have hnd' : (h f :: t.map h).Nodup := by simpa using hnd
    rw [List.foldl_cons, insertEntry_absent acc (h f) (FileEntry.mk f false)
      (fun q hq => hacc f (by simp) q hq)]
    have hacc' : ∀ g ∈ t, ∀ q ∈ acc ++ [(h f, FileEntry.mk f false)],
        (q.1 == h g) = false := by
      intro g hg q hq
      rcases List.mem_append.mp hq with hq | hq
      · exact hacc g (List.mem_cons_of_mem f hg) q hq
      · have hq' : q = (h f, FileEntry.mk f false) := by simpa using hq
        subst hq'
        have hne : h f ≠ h g := by
          intro heq
          exact (List.nodup_cons.mp hnd').1 (heq ▸ List.mem_map_of_mem h hg)
        simpa using hne
    rw [ih (acc ++ [(h f, FileEntry.mk f false)]) (List.Nodup.of_cons hnd') hacc']
    simp [List.append_assoc]

/-- With collision-free aliases, the requested map is just the alias/path
pairs in file order. -/
lemma buildEntries_eq (h : String → String) (files : List String)
    (hnd : (files.map h).Nodup) :
    buildEntries h files = files.map (fun f => (h f, FileEntry.mk f false)) := by
  have := buildEntries_go h files [] hnd (by intro f _ q hq; simp at hq)
  simpa [buildEntries] using this

/-- In the collision-free requested map, the alias of a requested path
resolves back to that path. -/
lemma lookupPath_simple (h : String → String) (files : List String) (p : String)
    (hp : p ∈ files) (hnd : (files.map h).Nodup) :
    lookupPath (files.map (fun f => (h f, FileEntry.mk f false))) (h p) = some p := by
  induction files with
  | nil => simp at hp
  | cons f t ih =>
    have hnd' : (h f :: t.map h).Nodup := by simpa using hnd
    by_cases hf : (h f == h p) = true
    · have hfp : h f = h p := eq_of_beq hf
      have hpf : p = f := by
        rcases List.mem_cons.mp hp with h1 | h1
        · exact h1
        · exact absurd (hfp ▸ List.mem_map_of_mem h h1) (List.nodup_cons.mp hnd').1
      subst hpf
      simp [lookupPath, List.find?_cons, hf]
    · have hf' : (h f == h p) = false := by simpa using hf
      have hp' : p ∈ t := by
        rcases List.mem_cons.mp hp with h1 | h1
        · subst h1; simp at hf'
        · exact h1
      have := ih hp' (List.Nodup.of_cons hnd')
      simpa [lookupPath, List.find?_cons, hf'] using this

/-- Mapping distributes over `flatMap`. -/
lemma map_flatMap' {α β γ : Type} (l : List α) (f : α → List β) (g : β → γ) :
    (l.flatMap f).map g = l.flatMap (fun a => (f a).map g) := by
  induction l with
  | nil => rfl
  | cons a t ih => simp [List.flatMap_cons, ih]

/-- `flatMap` respects pointwise equality on members. -/
lemma flatMap_congr_mem {α β : Type} (l : List α) (f g : α → List β)
    (hfg : ∀ a ∈ l, f a = g a) : l.flatMap f = l.flatMap g := by
  induction l with
  | nil => rfl
  | cons a t ih =>
    rw [List.flatMap_cons, List.flatMap_cons, hfg a (by simp),
      ih (fun x hx => hfg x (by simp [hx]))]

/-- C4: packing a set of paths (each aliased by `h`, standing for the hex
hash of the path text) and then unpacking with the identical requested set
reproduces every file byte-identically at its original location: each
extracted entry is materialized at the requested output path joined with
the entry's path minus its leading alias component.  The hypothesis states
that the aliases of the packed paths do not collide (which the hex SHA-256
aliasing provides). -/
theorem pack_unpack_roundtrip (h : String → String)
    (inputs : List (String × FsNode))
    (hnd : ((inputs.map Prod.fst).map h).Nodup) :
    (unpack (buildEntries h (inputs.map Prod.fst)) (pack h inputs)).map
        (fun x => x.2)
      = some (originalFiles inputs) := by
  rw [unpack, buildEntries_eq h (inputs.map Prod.fst) hnd]
  set M := (inputs.map Prod.fst).map (fun f => (h f, FileEntry.mk f false)) with hM
  have hlook : ∀ p ∈ inputs.map Prod.fst, lookupPath M (h p) = some p :=
    fun p hp => lookupPath_simple h (inputs.map Prod.fst) p hp hnd
  have hall : ∀ e ∈ pack h inputs,
      ∃ a r, e.path = a :: r ∧ (lookupPath M a).isSome := by
    intro e he
    rcases List.mem_flatMap.mp he with ⟨q, hq, he'⟩
    have hq1 : q.1 ∈ inputs.map Prod.fst := List.mem_map_of_mem Prod.fst hq
    cases hnode : q.2 with
    | file c =>
      rw [hnode] at he'
      have he2 : e = TarEntry.mk [h q.1] c := by simpa using he'
      subst he2
      exact ⟨h q.1, [], rfl, by rw [hlook q.1 hq1]; rfl⟩
    | dir tree =>
      rw [hnode] at he'
      rcases List.mem_map.mp he' with ⟨rc, _, hrce⟩
      refine ⟨h q.1, rc.1, ?_, by rw [hlook q.1 hq1]; rfl⟩
      rw [← hrce]
  rw [unpackGo_writes (pack h inputs) M [] hall]
  congr 1
  rw [List.reverse_nil, List.nil_append, pack, originalFiles, map_flatMap']
  refine flatMap_congr_mem _ _ _ (fun q hq => ?_)
  have hq1 : q.1 ∈ inputs.map Prod.fst := List.mem_map_of_mem Prod.fst hq
  cases hnode : q.2 with
  | file c => simp [hlook q.1 hq1]
  | dir tree => simp [hlook q.1 hq1]

/-- Witness for C4: a single file and a directory holding one nested file
round-trip to their original paths and bytes. -/
theorem pack_unpack_roundtrip_witness :
    (unpack (buildEntries (fun s => s)
          ([("pa", FsNode.file [1]),
            ("pb", FsNode.dir [(["d", "f"], [2, 3])])].map Prod.fst))
        (pack (fun s => s)
          [("pa", FsNode.file [1]),
            ("pb", FsNode.dir [(["d", "f"], [2, 3])])])).map (fun x => x.2)
      = some (originalFiles
          [("pa", FsNode.file [1]), ("pb", FsNode.dir [(["d", "f"], [2, 3])])]) :=
  pack_unpack_roundtrip (fun s => s)
    [("pa", FsNode.file [1]), ("pb", FsNode.dir [(["d", "f"], [2, 3])])]
    (by decide)

/-- C9 (partial, the `FolderBackend` half): the existence probe of the
folder store checks, without any locking, whether the file whose name is
the lowercase-hex rendering of the one-way hash of the key exists under the
base directory; every character of that derived file name is a lowercase
hex digit. -/
theorem folder_exists_hex_name (digest : String → List Nat) (base : String)
    (existing : List String) (key : String) :
    folder_exists digest base existing key
        = existing.contains (base ++ "/" ++ base16_lower_encode (digest key)) ∧
    ((hash_file_name digest key).data.all
        (fun c => "0123456789abcdef".data.contains c)) = true := by
  constructor
  · rfl
  · rw [hash_file_name, base16_lower_encode]
    show ((digest key).flatMap byteHex).all _ = true
    rw [List.all_eq_true]
    intro c hc
    rcases List.mem_flatMap.mp hc with ⟨b, _, hcb⟩
    have hdigit : ∀ n : Nat, n < 16 →
        ("0123456789abcdef".data.contains (hexDigit n)) = true := by decide
    rcases (by simpa [byteHex] using hcb :
        c = hexDigit (b / 16 % 16) ∨ c = hexDigit (b % 16)) with hce | hce <;>
      (subst hce; exact hdigit _ (Nat.mod_lt _ (by decide)))

/-- The method names the `StorageBackend` trait declares
(storage_backend.rs:1-5): only `writer` and `reader`. -/
def storage_backend_trait_methods : List String := ["writer", "reader"]

/-- The backend methods `pull` invokes through the `StorageBackend`
interface: the existence probe (main.rs:135) and the reader (main.rs:163).
`FolderBackend` also defines `exists` inside its `StorageBackend` impl
(folder_backend.rs:52-56). -/
def pull_backend_methods : List String := ["exists", "reader"]

/-- C9: `pull` requires an `exists` probe through the storage interface,
but the declared trait omits it (the missing declaration is the code slip);
the folder implementation's `exists` itself checks, without locking,
whether the file whose name is the lowercase-hex one-way hash of the key
exists under the base directory. -/
theorem storage_exists_mismatch (digest : String → List Nat) (base : String)
    (existing : List String) (key : String) :
    "exists" ∈ pull_backend_methods ∧
    "exists" ∉ storage_backend_trait_methods ∧
    folder_exists digest base existing key
        = existing.contains (base ++ "/" ++ base16_lower_encode (digest key)) ∧
    ((hash_file_name digest key).data.all
        (fun c => "0123456789abcdef".data.contains c)) = true :=
  ⟨by decide, by decide, (folder_exists_hex_name digest base existing key).1,
    (folder_exists_hex_name digest base existing key).2⟩
